import Mathlib

/-!
Verification of the Ranges library (lazy views and eager range adaptors).

The C++ sources are shallowly embedded: sequences become `List α`, iterators
become explicit cursor structures, and code paths that throw become
`Except Err` results.  Each definition mirrors one function of the source
(`Views.h` for the four lazy views, `RangeAdaptors.h` for the terminal
adaptors); theorems at the end of the file settle the specification claims.
-/

/-- Error taxonomy of the library (spec section 7): the exception kinds thrown
by the C++ code (`std::invalid_argument`, "Range is empty",
"Item not found", `std::out_of_range`). -/
inductive Err where
  | invalidArgument
  | emptySequence
  | itemNotFound
  | iterationOutOfRange
deriving DecidableEq, Repr

/-! ## AppendView (Views.h `AppendView`)

The iterator carries an underlying cursor (an index into the source list) and
a discrete phase tag `AppendPosition`. -/

/-- Phase tag of `AppendView::AppendIterator` (`enum class AppendPosition`). -/
inductive AppendPosition where
  | InRange
  | InAppend
  | InEnd
deriving DecidableEq, Repr

/-- Cursor of `AppendView`: the underlying iterator `_it` (an index into the
source) and the phase `_position`.  Equality of cursors is field-wise, exactly
as `AppendIterator::operator==` compares `_it` and `_position`. -/
structure AppendIterator where
  it : Nat
  position : AppendPosition
deriving DecidableEq, Repr

/-- Models `AppendView::begin()`: phase `InRange` at the source's begin when the
source is non-empty, else phase `InAppend`. -/
def AppendView.beginIter (s : List α) : AppendIterator :=
  if 0 < s.length then ⟨0, .InRange⟩ else ⟨0, .InAppend⟩

/-- Models `AppendView::end()`: the source's end position with phase `InEnd`. -/
def AppendView.endIter (s : List α) : AppendIterator :=
  ⟨s.length, .InEnd⟩

/-- Models `AppendIterator::operator*`: in `InRange` dereference the underlying
iterator, in `InAppend` return the stored value, in `InEnd` throw
`std::out_of_range` ("Cannot get value at end").  Dereferencing an invalid
underlying index (undefined behaviour in C++) is mapped to the same error. -/
def AppendView.derefIter (s : List α) (v : α) (i : AppendIterator) : Except Err α :=
  match i.position with
  | .InRange =>
      match s[i.it]? with
      | some x => .ok x
      | none => .error .iterationOutOfRange
  | .InAppend => .ok v
  | .InEnd => .error .iterationOutOfRange

/-- Models `AppendIterator::operator++`: advance the underlying iterator in
`InRange` (switching to `InAppend` on reaching the source's end), step
`InAppend` to `InEnd`, and throw `std::out_of_range`
("Cannot iterate out of end") in `InEnd`. -/
def AppendView.nextIter (s : List α) (i : AppendIterator) : Except Err AppendIterator :=
  match i.position with
  | .InRange =>
      if i.it + 1 = s.length then .ok ⟨i.it + 1, .InAppend⟩
      else .ok ⟨i.it + 1, .InRange⟩
  | .InAppend => .ok ⟨i.it, .InEnd⟩
  | .InEnd => .error .iterationOutOfRange

/-- Drives the `AppendView` cursor from a given state until it equals
`end()`, collecting dereferenced values; fuel bounds the number of steps. -/
def AppendView.iterate (s : List α) (v : α) : AppendIterator → Nat → Except Err (List α)
  | _, 0 => .ok []
  | i, fuel + 1 =>
    if i = AppendView.endIter s then .ok []
    else do
      let x ← AppendView.derefIter s v i
      let i' ← AppendView.nextIter s i
      let rest ← AppendView.iterate s v i' fuel
      .ok (x :: rest)

/-- External iteration of `AppendView` from `begin()` to `end()`. -/
def AppendView.toList (s : List α) (v : α) : Except Err (List α) :=
  AppendView.iterate s v (AppendView.beginIter s) (s.length + 2)

lemma AppendView.iterate_inAppend (s : List α) (v : α) (f : Nat) :
    AppendView.iterate s v ⟨s.length, .InAppend⟩ (f + 2) = .ok [v] := by
  have h1 : (⟨s.length, .InAppend⟩ : AppendIterator) ≠ AppendView.endIter s := by
    simp [AppendView.endIter]
  rw [AppendView.iterate, if_neg h1]
  simp only [AppendView.derefIter, AppendView.nextIter, bind, Except.bind]
  rw [AppendView.iterate,
    if_pos (show (⟨s.length, AppendPosition.InEnd⟩ : AppendIterator) = AppendView.endIter s from rfl)]

lemma AppendView.iterate_inRange (s : List α) (v : α) :
    ∀ f i, i < s.length → s.length - i + 2 ≤ f →
      AppendView.iterate s v ⟨i, .InRange⟩ f = .ok (s.drop i ++ [v]) := by
  intro f
  induction f with
  | zero => intro i hi hf; omega
  | succ f ih =>
    intro i hi hf
    have hne : (⟨i, .InRange⟩ : AppendIterator) ≠ AppendView.endIter s := by
      simp [AppendView.endIter]
    rw [AppendView.iterate, if_neg hne]
    have hderef : AppendView.derefIter s v ⟨i, .InRange⟩ = .ok s[i] := by
      simp [AppendView.derefIter, List.getElem?_eq_getElem hi]
    by_cases hlast : i + 1 = s.length
    · have hnext : AppendView.nextIter s ⟨i, .InRange⟩ = .ok ⟨i + 1, .InAppend⟩ := by
        simp [AppendView.nextIter, hlast]
      obtain ⟨k, hk⟩ : ∃ k, f = k + 2 := ⟨f - 2, by omega⟩
      rw [hderef, hnext]
      simp only [bind, Except.bind]
      rw [hlast, hk, AppendView.iterate_inAppend]
      have hsingle : s.drop i = [s[i]] := by
        rw [List.drop_eq_getElem_cons hi]
        simp [List.drop_eq_nil_of_le (by omega : s.length ≤ i + 1)]
      rw [hsingle]
      rfl
    · have hnext : AppendView.nextIter s ⟨i, .InRange⟩ = .ok ⟨i + 1, .InRange⟩ := by
        simp [AppendView.nextIter, hlast]
      rw [hderef, hnext]
      simp only [bind, Except.bind]
      rw [ih (i + 1) (by omega) (by omega), List.drop_eq_getElem_cons hi]
      rfl

lemma AppendView.toList_append (s : List α) (v : α) :
    AppendView.toList s v = .ok (s ++ [v]) := by
  unfold AppendView.toList AppendView.beginIter
  by_cases h : 0 < s.length
  · rw [if_pos h, AppendView.iterate_inRange s v (s.length + 2) 0 h (by omega)]
    simp
  · have hs : s = [] := by
      cases s with
      | nil => rfl
      | cons a l => simp at h
    subst hs
    rw [if_neg h]
    exact AppendView.iterate_inAppend [] v 0

/-! ## ChunkView (Views.h `ChunkView`)

The iterator carries the two underlying cursors `_from` and `_to` (indices
into the source list); `operator==` compares `_from` only.  The constructor
sets `_to := from` and then advances `_to` by the chunk size, bounded by the
source's end (`std::ranges::advance(_to, size, end)`). -/

/-- Cursor of `ChunkView`: the `_from` and `_to` positions of the current
chunk, as indices into the source list. -/
structure ChunkIterator where
  fromPos : Nat
  toPos : Nat
deriving DecidableEq, Repr

/-- Models `ChunkIterator`'s converting constructor: `_from := from`,
`_to := from` advanced by `n` bounded by the source's end. -/
def ChunkView.mkIter (s : List α) (n : Nat) (start : Nat) : ChunkIterator :=
  ⟨start, min (start + n) s.length⟩

/-- Models `ChunkView::begin()`. -/
def ChunkView.beginIter (s : List α) (n : Nat) : ChunkIterator :=
  ChunkView.mkIter s n 0

/-- Models `ChunkView::end()` (the constructor applied at the source's end:
advancing `_to` from there moves nowhere). -/
def ChunkView.endIter (s : List α) (n : Nat) : ChunkIterator :=
  ChunkView.mkIter s n s.length

/-- Models `ChunkIterator::operator*`: the subrange `[_from, _to)` of the
source, extracted as a list. -/
def ChunkView.derefIter (s : List α) (it : ChunkIterator) : List α :=
  (s.drop it.fromPos).take (it.toPos - it.fromPos)

/-- Models `ChunkIterator::operator++`: `_from := _to`, then `_to` advances by
`n` bounded by the source's end. -/
def ChunkView.nextIter (s : List α) (n : Nat) (it : ChunkIterator) : ChunkIterator :=
  ⟨it.toPos, min (it.toPos + n) s.length⟩

/-- Models `ChunkIterator::operator--`: `_to := _from`, then `_from` moves
backward by `n` bounded by the source's begin (truncated subtraction models
`std::ranges::advance(_from, -size, begin)`). -/
def ChunkView.prevIter (it : ChunkIterator) (n : Nat) : ChunkIterator :=
  ⟨it.fromPos - n, it.fromPos⟩

/-- The list of chunks produced by iterating a `ChunkView` with chunk size
`m + 1` starting from position `i`: the loop `it != end` over
`ChunkIterator`, where each dereference yields `[_from, _to)` with
`_to = min (_from + size) len` and `operator==` compares `_from` with the
end's `_from = len`.  Encoding the size as `m + 1` bakes in the constructor
precondition `size ≠ 0` (enforced by `ChunkView.toList` below). -/
def ChunkView.chunkListGo (s : List α) (m : Nat) (i : Nat) : List (List α) :=
  if h : i < s.length then
    (s.drop i).take (m + 1) :: ChunkView.chunkListGo s m (min (i + (m + 1)) s.length)
  else []
termination_by s.length - i
decreasing_by omega

/-- Models constructing `ChunkView(view, size)` (which throws
`std::invalid_argument` when `size == 0`) and iterating it from `begin()` to
`end()`. -/
def ChunkView.toList (s : List α) (n : Nat) : Except Err (List (List α)) :=
  match n with
  | 0 => .error .invalidArgument
  | m + 1 => .ok (ChunkView.chunkListGo s m 0)

/-- Models `ChunkView::size()`: `(n + _size - 1) / _size` where `n` is the
source's size. -/
def ChunkView.viewSize (s : List α) (n : Nat) : Nat :=
  (s.length + n - 1) / n

lemma ChunkView.chunkListGo_join (s : List α) (m : Nat) :
    ∀ i, (ChunkView.chunkListGo s m i).flatten = s.drop i := by
  intro i
  induction i using ChunkView.chunkListGo.induct s m with
  | case1 i h ih =>
    rw [ChunkView.chunkListGo, dif_pos h, List.flatten_cons, ih]
    have hmin : s.drop (min (i + (m + 1)) s.length) = s.drop (i + (m + 1)) := by
      rcases le_or_lt (i + (m + 1)) s.length with hle | hlt
      · rw [Nat.min_eq_left hle]
      · rw [Nat.min_eq_right (le_of_lt hlt),
          List.drop_length, List.drop_eq_nil_of_le (le_of_lt hlt)]
    rw [hmin, ← List.drop_drop, List.take_append_drop]
  | case2 i h =>
    rw [ChunkView.chunkListGo, dif_neg h, List.flatten_nil,
      List.drop_eq_nil_of_le (by omega)]

lemma ChunkView.div_step (r m : Nat) (h : 0 < r) :
    (r + m) / (m + 1) = (r - (m + 1) + m) / (m + 1) + 1 := by
  rcases le_or_lt (m + 1) r with hle | hlt
  · have : r + m = (r - (m + 1) + m) + (m + 1) := by omega
    rw [this, Nat.add_div_right _ (Nat.succ_pos m)]
  · have h1 : r - (m + 1) = 0 := by omega
    have h2 : (r + m) / (m + 1) = 1 := by
      apply Nat.div_eq_of_lt_le
      · omega
      · omega
    have h3 : m / (m + 1) = 0 := Nat.div_eq_of_lt (by omega)
    rw [h1, h2, Nat.zero_add, h3]

lemma ChunkView.chunkListGo_length (s : List α) (m : Nat) :
    ∀ i, (ChunkView.chunkListGo s m i).length = (s.length - i + m) / (m + 1) := by
  intro i
  induction i using ChunkView.chunkListGo.induct s m with
  | case1 i h ih =>
    rw [ChunkView.chunkListGo, dif_pos h, List.length_cons, ih]
    have hmin : s.length - min (i + (m + 1)) s.length = s.length - i - (m + 1) := by
      omega
    rw [hmin]
    have := ChunkView.div_step (s.length - i) m (by omega)
    omega
  | case2 i h =>
    rw [ChunkView.chunkListGo.eq_def, dif_neg h]
    have : s.length - i = 0 := by omega
    rw [this, List.length_nil, Nat.zero_add]
    exact (Nat.div_eq_of_lt (by omega)).symm

lemma ChunkView.chunkListGo_eq_nil_iff (s : List α) (m i : Nat) :
    ChunkView.chunkListGo s m i = [] ↔ s.length ≤ i := by
  rw [ChunkView.chunkListGo.eq_def]
  rcases Nat.lt_or_ge i s.length with h | h
  · rw [dif_pos h]
    simp
    omega
  · rw [dif_neg (by omega)]
    simp
    omega

lemma ChunkView.chunkListGo_dropLast (s : List α) (m : Nat) :
    ∀ i, ∀ c ∈ (ChunkView.chunkListGo s m i).dropLast, c.length = m + 1 := by
  intro i
  induction i using ChunkView.chunkListGo.induct s m with
  | case1 i h ih =>
    intro c hc
    rw [ChunkView.chunkListGo.eq_def, dif_pos h] at hc
    rcases hrest : ChunkView.chunkListGo s m (min (i + (m + 1)) s.length) with _ | ⟨b, t⟩
    · rw [hrest, List.dropLast_single] at hc
      simp at hc
    · rw [hrest] at hc
      rw [List.dropLast_cons₂] at hc
      rcases List.mem_cons.mp hc with hceq | hmem
      · have hlen : i + (m + 1) < s.length := by
          have := (ChunkView.chunkListGo_eq_nil_iff s m (min (i + (m + 1)) s.length)).not
          by_contra hcon
          push_neg at hcon
          rw [hrest] at this
          simp at this
          omega
        rw [hceq, List.length_take, List.length_drop]
        omega
      · exact ih c (by rw [hrest]; exact hmem)
  | case2 i h =>
    intro c hc
    rw [ChunkView.chunkListGo.eq_def, dif_neg h] at hc
    simp at hc

lemma ChunkView.chunkListGo_getLast_length (s : List α) (m : Nat) :
    ∀ i, i < s.length →
      ∃ c, (ChunkView.chunkListGo s m i).getLast? = some c ∧
        c.length = (s.length - i - 1) % (m + 1) + 1 := by
  intro i
  induction i using ChunkView.chunkListGo.induct s m with
  | case1 i h ih =>
    intro _
    rw [ChunkView.chunkListGo.eq_def, dif_pos h]
    rcases Nat.lt_or_ge (i + (m + 1)) s.length with hlt | hge
    · obtain ⟨c, hc, hclen⟩ := ih (by omega)
      refine ⟨c, ?_, ?_⟩
      · rcases hrest : ChunkView.chunkListGo s m (min (i + (m + 1)) s.length) with _ | ⟨b, t⟩
        · rw [hrest] at hc
          simp at hc
        · rw [hrest] at hc
          rw [List.getLast?_cons_cons]
          exact hc
      · rw [hclen]
        have hmin : min (i + (m + 1)) s.length = i + (m + 1) := by omega
        rw [hmin]
        have harith : s.length - i - 1 = (s.length - (i + (m + 1)) - 1) + (m + 1) := by omega
        rw [harith, Nat.add_mod_right]
    · have hrest : ChunkView.chunkListGo s m (min (i + (m + 1)) s.length) = [] := by
        rw [ChunkView.chunkListGo_eq_nil_iff]
        omega
      rw [hrest]
      refine ⟨(s.drop i).take (m + 1), by simp, ?_⟩
      rw [List.length_take, List.length_drop]
      have hmod : (s.length - i - 1) % (m + 1) = s.length - i - 1 :=
        Nat.mod_eq_of_lt (by omega)
      omega
  | case2 i h =>
    intro hi
    omega

/-! ## ConcatView (Views.h `ConcatView`)

The iterator carries the flag `_isInSecond` and the two underlying cursors
`_firstIt` and `_secondIt` (indices into the two source lists). -/

/-- Cursor of `ConcatView`: the `_isInSecond` flag and the two underlying
iterators. -/
structure ConcatIterator where
  isInSecond : Bool
  firstIt : Nat
  secondIt : Nat
deriving DecidableEq, Repr

/-- Models `ConcatIterator`'s converting constructor with `isEnd = false`:
both cursors at their begins, `_isInSecond` set iff the first source is
immediately empty; this is `ConcatView::begin()`. -/
def ConcatView.beginIter (s1 s2 : List α) : ConcatIterator :=
  ⟨decide (0 = s1.length), 0, 0⟩

/-- Models `ConcatIterator`'s converting constructor with `isEnd = true`:
both cursors at their ends and `_isInSecond = true`; this is
`ConcatView::end()`. -/
def ConcatView.endIter (s1 s2 : List α) : ConcatIterator :=
  ⟨true, s1.length, s2.length⟩

/-- Models `ConcatIterator::operator==`: equal flags, and the cursor of the
active source (the second-source cursor when both are in the second source,
else the first-source cursor). -/
def ConcatView.iterEq (a b : ConcatIterator) : Bool :=
  a.isInSecond = b.isInSecond &&
    (if a.isInSecond then a.secondIt = b.secondIt else a.firstIt = b.firstIt)

/-- Models `ConcatIterator::operator*`: dereference whichever source is
active (`none` models the undefined behaviour of dereferencing an invalid
underlying iterator, which correct iteration never does). -/
def ConcatView.derefIter (s1 s2 : List α) (it : ConcatIterator) : Option α :=
  if it.isInSecond then s2[it.secondIt]? else s1[it.firstIt]?

/-- Models `ConcatIterator::operator++`: advance the active source's cursor;
when advancing the first source reaches its end, flip `_isInSecond` and reset
the second source's cursor to its begin. -/
def ConcatView.nextIter (s1 s2 : List α) (it : ConcatIterator) : ConcatIterator :=
  if it.isInSecond then ⟨true, it.firstIt, it.secondIt + 1⟩
  else if it.firstIt + 1 = s1.length then ⟨true, it.firstIt + 1, 0⟩
  else ⟨false, it.firstIt + 1, it.secondIt⟩

/-- Models `ConcatView::size()`: the sum of the two sources' sizes. -/
def ConcatView.viewSize (s1 s2 : List α) : Nat :=
  s1.length + s2.length

/-- Drives the `ConcatView` cursor until it compares equal to `end()`
(per `operator==`), collecting dereferenced values; fuel bounds the steps. -/
def ConcatView.iterate (s1 s2 : List α) : ConcatIterator → Nat → List (Option α)
  | _, 0 => []
  | it, fuel + 1 =>
    if ConcatView.iterEq it (ConcatView.endIter s1 s2) then []
    else ConcatView.derefIter s1 s2 it ::
      ConcatView.iterate s1 s2 (ConcatView.nextIter s1 s2 it) fuel

/-- External iteration of `ConcatView` from `begin()` to `end()`. -/
def ConcatView.toList (s1 s2 : List α) : List (Option α) :=
  ConcatView.iterate s1 s2 (ConcatView.beginIter s1 s2) (s1.length + s2.length)

lemma ConcatView.iterate_second (s1 s2 : List α) :
    ∀ f j i, j ≤ s2.length → s2.length - j ≤ f →
      ConcatView.iterate s1 s2 ⟨true, i, j⟩ f = (s2.drop j).map some := by
  intro f
  induction f with
  | zero =>
    intro j i hj hf
    rw [ConcatView.iterate]
    have : s2.length ≤ j := by omega
    rw [List.drop_eq_nil_of_le this, List.map_nil]
  | succ f ih =>
    intro j i hj hf
    by_cases hend : j = s2.length
    · subst hend
      rw [ConcatView.iterate, if_pos (by simp [ConcatView.iterEq, ConcatView.endIter])]
      rw [List.drop_length, List.map_nil]
    · have hjlt : j < s2.length := by omega
      rw [ConcatView.iterate, if_neg (by simp [ConcatView.iterEq, ConcatView.endIter]; omega)]
      have hderef : ConcatView.derefIter s1 s2 ⟨true, i, j⟩ = some s2[j] := by
        simp [ConcatView.derefIter, List.getElem?_eq_getElem hjlt]
      have hnext : ConcatView.nextIter s1 s2 ⟨true, i, j⟩ = ⟨true, i, j + 1⟩ := by
        simp [ConcatView.nextIter]
      rw [hderef, hnext, ih (j + 1) i (by omega) (by omega),
        List.drop_eq_getElem_cons hjlt, List.map_cons]

lemma ConcatView.iterate_first (s1 s2 : List α) :
    ∀ f i j, i < s1.length → s1.length - i + s2.length ≤ f →
      ConcatView.iterate s1 s2 ⟨false, i, j⟩ f = ((s1.drop i) ++ s2).map some := by
  intro f
  induction f with
  | zero => intro i j hi hf; omega
  | succ f ih =>
    intro i j hi hf
    rw [ConcatView.iterate, if_neg (by simp [ConcatView.iterEq, ConcatView.endIter])]
    have hderef : ConcatView.derefIter s1 s2 ⟨false, i, j⟩ = some s1[i] := by
      simp [ConcatView.derefIter, List.getElem?_eq_getElem hi]
    rw [hderef]
    by_cases hlast : i + 1 = s1.length
    · have hnext : ConcatView.nextIter s1 s2 ⟨false, i, j⟩ = ⟨true, i + 1, 0⟩ := by
        simp [ConcatView.nextIter, hlast]
      rw [hnext, ConcatView.iterate_second s1 s2 f 0 (i + 1) (by omega) (by omega)]
      have hdrop : s1.drop i = [s1[i]] := by
        rw [List.drop_eq_getElem_cons hi]
        simp [List.drop_eq_nil_of_le (by omega : s1.length ≤ i + 1)]
      rw [hdrop]
      simp
    · have hnext : ConcatView.nextIter s1 s2 ⟨false, i, j⟩ = ⟨false, i + 1, j⟩ := by
        simp [ConcatView.nextIter, hlast]
      rw [hnext, ih (i + 1) j (by omega) (by omega), List.drop_eq_getElem_cons hi]
      rfl

lemma ConcatView.toList_mapSome (s1 s2 : List α) :
    ConcatView.toList s1 s2 = (s1 ++ s2).map some := by
  unfold ConcatView.toList ConcatView.beginIter
  by_cases h : 0 = s1.length
  · have hs1 : s1 = [] := by
      cases s1 with
      | nil => rfl
      | cons a l => simp at h
    subst hs1
    rw [decide_eq_true (by simp)]
    rw [ConcatView.iterate_second [] s2 ([].length + s2.length) 0 0 (by omega) (by simp)]
    simp
  · rw [decide_eq_false h]
    rw [ConcatView.iterate_first s1 s2 (s1.length + s2.length) 0 0 (by omega) (by omega)]
    simp

/-! ## OrderedView (Views.h `OrderedView`) and the Order adaptors
(RangeAdaptors.h `OrderAdaptor`, Ranges.h `OrderBy` / `OrderByDescending`)

`std::ranges::sort(buffer, comparer, projection)` guarantees the buffer is a
permutation of its input that is sorted with respect to the comparer applied
to projected keys; it is modelled by `List.mergeSort` on the negated flipped
comparer (a list sorted by `std::ranges::sort` with strict comparer `comp`
has no adjacent pair with `comp later earlier`). -/

/-- Models `std::ranges::sort(v, comp, proj)` for a strict comparer `comp`:
the result is ordered so that `comp (proj later) (proj earlier)` never holds
for elements in order. -/
def rangesSort (s : List α) (comp : β → β → Bool) (proj : α → β) : List α :=
  s.mergeSort (fun a b => !comp (proj b) (proj a))

/-- Models `OrderedView::EnsureSorted`'s buffer content: the source drained
into a vector and sorted by `comp` on projected keys. -/
def OrderedView.materialize (s : List α) (comp : β → β → Bool) (proj : α → β) : List α :=
  rangesSort s comp proj

/-- Models `Ranges::OrderBy(projection)`: an `OrderedView` whose comparer is
`std::less` on the projected keys. -/
def Ranges.orderBy [LinearOrder β] (s : List α) (proj : α → β) : List α :=
  OrderedView.materialize s (fun x y => decide (x < y)) proj

/-- Models `Ranges::OrderByDescending(projection)`: an `OrderedView` whose
comparer is `std::greater` on the projected keys. -/
def Ranges.orderByDescending [LinearOrder β] (s : List α) (proj : α → β) : List α :=
  OrderedView.materialize s (fun x y => decide (y < x)) proj

/-- Mutable part of an `OrderedView` instance together with an
instrumentation counter: `_sorted`, `_sortedRange`, and the number of times
the drain-and-sort body of `EnsureSorted` has executed. -/
structure OrderedViewState (α : Type u) where
  sorted : Bool
  sortedRange : List α
  sortCount : Nat
deriving DecidableEq, Repr

/-- Models the `OrderedView` constructor's initial state: `_sorted = false`,
an empty buffer, and no drain/sort executed (the constructor body only
stores the view, comparer and projection). -/
def OrderedView.initState : OrderedViewState α :=
  ⟨false, [], 0⟩

/-- Models `OrderedView::EnsureSorted`: if `_sorted` is unset, set it, drain
the source into `_sortedRange` and sort it (counted by `sortCount`);
otherwise do nothing. -/
def OrderedView.ensureSorted (s : List α) (comp : β → β → Bool) (proj : α → β)
    (st : OrderedViewState α) : OrderedViewState α :=
  if st.sorted then st
  else ⟨true, OrderedView.materialize s comp proj, st.sortCount + 1⟩

/-- Models `OrderedView::begin()`: run `EnsureSorted`, then return the
begin cursor of the materialized buffer (represented by the buffer itself)
together with the updated instance state. -/
def OrderedView.beginOV (s : List α) (comp : β → β → Bool) (proj : α → β)
    (st : OrderedViewState α) : List α × OrderedViewState α :=
  ((OrderedView.ensureSorted s comp proj st).sortedRange,
    OrderedView.ensureSorted s comp proj st)

/-- Models `OrderedView::end()`: run `EnsureSorted`, then return the end
cursor of the materialized buffer (its length) with the updated state. -/
def OrderedView.endOV (s : List α) (comp : β → β → Bool) (proj : α → β)
    (st : OrderedViewState α) : Nat × OrderedViewState α :=
  ((OrderedView.ensureSorted s comp proj st).sortedRange.length,
    OrderedView.ensureSorted s comp proj st)

/-! ## Eager terminal adaptors (RangeAdaptors.h)

First/Last and their OrDefault variants, plus the unordered-map conversion.
Throwing paths become `Except Err`; the OrDefault variants return
`Option α` (`std::optional`). -/

/-- Models `FirstAdaptor::operator()`: the first element, or the
"Range is empty" error. -/
def Ranges.firstAdaptor (s : List α) : Except Err α :=
  match s with
  | [] => .error .emptySequence
  | x :: _ => .ok x

/-- Models `FirstOrDefaultAdaptor::operator()`: the first element as an
optional, empty on an empty range. -/
def Ranges.firstOrDefaultAdaptor (s : List α) : Option α :=
  match s with
  | [] => none
  | x :: _ => some x

/-- Models the forward-scan loop of `LastAdaptor` (the non-bidirectional
branch): `last = it` is re-assigned on every iteration, so the retained
cursor ends at the final element. -/
def Ranges.lastForwardGo (c : α) : List α → α
  | [] => c
  | y :: ys => Ranges.lastForwardGo y ys

/-- Models `LastAdaptor::operator()` on a bidirectional range: empty check,
then `*std::ranges::prev(std::ranges::end(range))`. -/
def Ranges.lastAdaptorBidir (s : List α) : Except Err α :=
  match s with
  | [] => .error .emptySequence
  | x :: xs => .ok ((x :: xs).getLast (List.cons_ne_nil x xs))

/-- Models `LastAdaptor::operator()` on a forward-only range: empty check,
then a full forward scan retaining the most recent cursor. -/
def Ranges.lastAdaptorForward (s : List α) : Except Err α :=
  match s with
  | [] => .error .emptySequence
  | x :: xs => .ok (Ranges.lastForwardGo x xs)

/-- Models `LastOrDefaultAdaptor::operator()` on a bidirectional range. -/
def Ranges.lastOrDefaultBidir (s : List α) : Option α :=
  match s with
  | [] => none
  | x :: xs => some ((x :: xs).getLast (List.cons_ne_nil x xs))

/-- Models `LastOrDefaultAdaptor::operator()` on a forward-only range. -/
def Ranges.lastOrDefaultForward (s : List α) : Option α :=
  match s with
  | [] => none
  | x :: xs => some (Ranges.lastForwardGo x xs)

/-- Models a forward scan returning the first element satisfying the
predicate (the early-returning `for` loops of the predicate adaptors). -/
def Ranges.findFirst (p : α → Bool) : List α → Option α
  | [] => none
  | x :: xs => if p x then some x else Ranges.findFirst p xs

/-- Models `LastAdaptor2::operator()` (predicate form) on a bidirectional
range: scan from `rbegin` to `rend` returning the first match, else the
"Item not found" error. -/
def Ranges.lastPredBidir (s : List α) (p : α → Bool) : Except Err α :=
  match Ranges.findFirst p s.reverse with
  | some x => .ok x
  | none => .error .itemNotFound

/-- Models the forward fallback loop of `LastAdaptor2` /
`LastOrDefaultAdaptor2`: `found` is overwritten by each match. -/
def Ranges.lastRetainGo (p : α → Bool) (found : Option α) : List α → Option α
  | [] => found
  | x :: xs => Ranges.lastRetainGo p (if p x then some x else found) xs

/-- Models `LastAdaptor2::operator()` (predicate form) on a forward-only
range: full scan retaining the most recent match, else the
"Item not found" error. -/
def Ranges.lastPredForward (s : List α) (p : α → Bool) : Except Err α :=
  match Ranges.lastRetainGo p none s with
  | some x => .ok x
  | none => .error .itemNotFound

/-- Models `LastOrDefaultAdaptor2::operator()` on a bidirectional range. -/
def Ranges.lastOrDefaultPredBidir (s : List α) (p : α → Bool) : Option α :=
  Ranges.findFirst p s.reverse

/-- Models `LastOrDefaultAdaptor2::operator()` on a forward-only range. -/
def Ranges.lastOrDefaultPredForward (s : List α) (p : α → Bool) : Option α :=
  Ranges.lastRetainGo p none s

/-- Models `std::unordered_map` as an association list with distinct keys;
`emplace(k, e)` inserts only when `k` is absent and otherwise leaves the map
unchanged (it reports failure to insert via its return value, which the
adaptor discards) — it never throws on a duplicate key. -/
def Ranges.emplace [DecidableEq κ] (m : List (κ × ε)) (k : κ) (e : ε) : List (κ × ε) :=
  if m.any (fun kv => decide (kv.1 = k)) then m else m ++ [(k, e)]

/-- Key lookup in the association-list model of `std::unordered_map`. -/
def Ranges.lookupKey [DecidableEq κ] (m : List (κ × ε)) (k : κ) : Option ε :=
  match m with
  | [] => none
  | kv :: rest => if kv.1 = k then some kv.2 else Ranges.lookupKey rest k

/-- Models `ToUnorderedMapAdaptor::operator()`: iterate the range in order,
calling `map.emplace(keySelector(item), elementSelector(item))` on each
element. -/
def Ranges.toUnorderedMap [DecidableEq κ] (ks : α → κ) (es : α → ε) (s : List α) :
    List (κ × ε) :=
  s.foldl (fun m item => Ranges.emplace m (ks item) (es item)) []

lemma Ranges.lastForwardGo_eq_getLast (l : List α) :
    ∀ c, Ranges.lastForwardGo c l = (c :: l).getLast (List.cons_ne_nil c l) := by
  induction l with
  | nil => intro c; rfl
  | cons y ys ih =>
    intro c
    rw [Ranges.lastForwardGo, ih y, List.getLast_cons (List.cons_ne_nil y ys)]

lemma Ranges.findFirst_append (p : α → Bool) (l1 l2 : List α) :
    Ranges.findFirst p (l1 ++ l2) = (Ranges.findFirst p l1).or (Ranges.findFirst p l2) := by
  induction l1 with
  | nil => rw [List.nil_append, Ranges.findFirst, Option.none_or]
  | cons x xs ih =>
    rw [List.cons_append, Ranges.findFirst, Ranges.findFirst]
    by_cases h : p x
    · rw [if_pos h, if_pos h]
      rfl
    · rw [if_neg h, if_neg h, ih]

lemma Ranges.lastRetainGo_eq (p : α → Bool) (l : List α) :
    ∀ acc, Ranges.lastRetainGo p acc l = (Ranges.findFirst p l.reverse).or acc := by
  induction l with
  | nil => intro acc; rw [Ranges.lastRetainGo, List.reverse_nil, Ranges.findFirst, Option.none_or]
  | cons x xs ih =>
    intro acc
    rw [Ranges.lastRetainGo, ih, List.reverse_cons, Ranges.findFirst_append, Option.or_assoc]
    congr 1
    rw [Ranges.findFirst]
    by_cases h : p x
    · rw [if_pos h, if_pos h]
      rfl
    · rw [if_neg h, if_neg h, Ranges.findFirst, Option.none_or]

lemma Ranges.lookupKey_append_single [DecidableEq κ] (m : List (κ × ε)) (k0 : κ) (e0 : ε) (k : κ) :
    Ranges.lookupKey (m ++ [(k0, e0)]) k =
      (Ranges.lookupKey m k).or (if k0 = k then some e0 else none) := by
  induction m with
  | nil =>
    rw [List.nil_append, Ranges.lookupKey, Ranges.lookupKey, Option.none_or]
    rfl
  | cons kv rest ih =>
    rw [List.cons_append, Ranges.lookupKey, Ranges.lookupKey]
    by_cases h : kv.1 = k
    · rw [if_pos h, if_pos h]
      rfl
    · rw [if_neg h, if_neg h, ih]

lemma Ranges.any_key_iff [DecidableEq κ] (m : List (κ × ε)) (k : κ) :
    m.any (fun kv => decide (kv.1 = k)) = true ↔ (Ranges.lookupKey m k).isSome := by
  induction m with
  | nil => simp [Ranges.lookupKey]
  | cons kv rest ih =>
    rw [List.any_cons, Ranges.lookupKey]
    by_cases h : kv.1 = k
    · simp [h]
    · simp only [h, if_neg h, decide_False, Bool.false_or]
      exact ih

lemma Ranges.emplace_lookup [DecidableEq κ] (m : List (κ × ε)) (k0 : κ) (e0 : ε) (k : κ) :
    Ranges.lookupKey (Ranges.emplace m k0 e0) k =
      (Ranges.lookupKey m k).or (if k0 = k then some e0 else none) := by
  rw [Ranges.emplace]
  by_cases h : m.any (fun kv => decide (kv.1 = k0)) = true
  · rw [if_pos h]
    by_cases hk : k0 = k
    · subst hk
      obtain ⟨v, hv⟩ := Option.isSome_iff_exists.mp ((Ranges.any_key_iff m k0).mp h)
      rw [hv]
      rfl
    · rw [if_neg hk, Option.or_none]
  · rw [if_neg h, Ranges.lookupKey_append_single]

lemma Ranges.emplace_nodupKeys [DecidableEq κ] (m : List (κ × ε)) (k0 : κ) (e0 : ε)
    (h : ((m.map Prod.fst).Nodup)) : (((Ranges.emplace m k0 e0).map Prod.fst).Nodup) := by
  rw [Ranges.emplace]
  by_cases hany : m.any (fun kv => decide (kv.1 = k0)) = true
  · rw [if_pos hany]
    exact h
  · rw [if_neg hany, List.map_append]
    rw [List.nodup_append]
    refine ⟨h, by simp, ?_⟩
    intro a ha hb
    simp at hb
    subst hb
    apply hany
    rw [List.any_eq_true]
    simp only [List.mem_map] at ha
    obtain ⟨kv, hkv, hfst⟩ := ha
    exact ⟨kv, hkv, by simp [hfst]⟩

lemma Ranges.toUnorderedMap_go [DecidableEq κ] (ks : α → κ) (es : α → ε) (k : κ) :
    ∀ (s : List α) (m : List (κ × ε)),
      Ranges.lookupKey (s.foldl (fun m item => Ranges.emplace m (ks item) (es item)) m) k =
        (Ranges.lookupKey m k).or ((s.find? (fun x => decide (ks x = k))).map es) := by
  intro s
  induction s with
  | nil =>
    intro m
    rw [List.foldl_nil, List.find?_nil]
    exact Option.or_none.symm
  | cons x xs ih =>
    intro m
    rw [List.foldl_cons, ih, Ranges.emplace_lookup, List.find?_cons]
    by_cases h : ks x = k
    · rw [if_pos h]
      simp only [h, decide_True]
      rw [Option.or_assoc]
      rfl
    · rw [if_neg h]
      simp only [h, decide_False]
      rw [Option.or_none]

lemma Ranges.toUnorderedMap_go_nodup [DecidableEq κ] (ks : α → κ) (es : α → ε) :
    ∀ (s : List α) (m : List (κ × ε)), (m.map Prod.fst).Nodup →
      (((s.foldl (fun m item => Ranges.emplace m (ks item) (es item)) m).map Prod.fst).Nodup) := by
  intro s
  induction s with
  | nil => intro m h; rw [List.foldl_nil]; exact h
  | cons x xs ih =>
    intro m h
    rw [List.foldl_cons]
    exact ih _ (Ranges.emplace_nodupKeys m (ks x) (es x) h)

lemma ChunkView.mod_pred (len n : Nat) (hn : 1 ≤ n) (hnd : ¬ n ∣ len) :
    (len - 1) % n + 1 = len % n := by
  have hr : len % n ≠ 0 := fun h => hnd (Nat.dvd_of_mod_eq_zero h)
  have hrlt : len % n < n := Nat.mod_lt len (by omega)
  have hq := Nat.div_add_mod len n
  have hlen1 : len - 1 = n * (len / n) + (len % n - 1) := by omega
  rw [hlen1, Nat.mul_add_mod, Nat.mod_eq_of_lt (by omega)]
  omega

/-! ## Claim theorems -/

/-- C1: for every sequence `S` and chunk size `n ≥ 1`, iterating
`Chunk(S, n)` from begin to end produces exactly `ceil(len(S)/n)` chunks,
concatenating the chunks in order reproduces `S`, every chunk except possibly
the last has exactly `n` elements, and `ChunkView::size()` reports
`ceil(len(S)/n)`. -/
theorem chunk_spec (α : Type) (s : List α) (n : Nat) (hn : 1 ≤ n) :
    ChunkView.toList s n = .ok (ChunkView.chunkListGo s (n - 1) 0)
    ∧ (ChunkView.chunkListGo s (n - 1) 0).length = (s.length + n - 1) / n
    ∧ (ChunkView.chunkListGo s (n - 1) 0).flatten = s
    ∧ (∀ c ∈ (ChunkView.chunkListGo s (n - 1) 0).dropLast, c.length = n)
    ∧ ChunkView.viewSize s n = (ChunkView.chunkListGo s (n - 1) 0).length := by
  obtain ⟨m, rfl⟩ : ∃ m, n = m + 1 := ⟨n - 1, by omega⟩
  simp only [Nat.add_sub_cancel]
  refine ⟨rfl, ?_, ?_, ?_, ?_⟩
  · rw [ChunkView.chunkListGo_length]
    congr 1
  · rw [ChunkView.chunkListGo_join, List.drop_zero]
  · exact ChunkView.chunkListGo_dropLast s m 0
  · rw [ChunkView.viewSize, ChunkView.chunkListGo_length]
    congr 1

theorem chunk_spec_witness :
    1 ≤ 2 ∧
    (ChunkView.toList ([1, 2, 3, 4, 5] : List Nat) 2 =
        .ok (ChunkView.chunkListGo [1, 2, 3, 4, 5] 1 0)
      ∧ (ChunkView.chunkListGo ([1, 2, 3, 4, 5] : List Nat) 1 0).length =
          (([1, 2, 3, 4, 5] : List Nat).length + 2 - 1) / 2
      ∧ (ChunkView.chunkListGo ([1, 2, 3, 4, 5] : List Nat) 1 0).flatten = [1, 2, 3, 4, 5]
      ∧ (∀ c ∈ (ChunkView.chunkListGo ([1, 2, 3, 4, 5] : List Nat) 1 0).dropLast,
          c.length = 2)
      ∧ ChunkView.viewSize ([1, 2, 3, 4, 5] : List Nat) 2 =
          (ChunkView.chunkListGo ([1, 2, 3, 4, 5] : List Nat) 1 0).length) :=
  ⟨by decide, chunk_spec Nat [1, 2, 3, 4, 5] 2 (by decide)⟩

/-- C2: for every two sequences of the same element type, iterating
`Concat(S1, S2)` yields the elements of `S1` in order followed by the
elements of `S2` in order (`len(S1)+len(S2)` elements in total, also when
either source is empty), and `ConcatView::size()` is the sum of the two
sizes. -/
theorem concat_spec (α : Type) (s1 s2 : List α) :
    ConcatView.toList s1 s2 = (s1 ++ s2).map some
    ∧ (ConcatView.toList s1 s2).length = s1.length + s2.length
    ∧ (ConcatView.toList s1 s2).take s1.length = s1.map some
    ∧ (ConcatView.toList s1 s2).drop s1.length = s2.map some
    ∧ ConcatView.viewSize s1 s2 = s1.length + s2.length := by
  have h := ConcatView.toList_mapSome s1 s2
  refine ⟨h, ?_, ?_, ?_, rfl⟩
  · rw [h]
    simp
  · rw [h, List.map_append, ← List.length_map s1 some, List.take_left]
  · rw [h, List.map_append, ← List.length_map s1 some, List.drop_left]

/-- C3: for every sequence `S` and value `v`, iterating `Append(S, v)`
yields the elements of `S` in order followed by `v` (hence `len(S)+1`
elements); the cursor starts in phase `InAppend` when `S` is empty and
`InRange` otherwise; and dereferencing or advancing a cursor in phase
`InEnd` fails with the IterationOutOfRange error. -/
theorem append_spec (α : Type) (s : List α) (v : α) :
    AppendView.toList s v = .ok (s ++ [v])
    ∧ (AppendView.beginIter s).position =
        (if s.length = 0 then AppendPosition.InAppend else AppendPosition.InRange)
    ∧ (∀ j : Nat, AppendView.derefIter s v ⟨j, .InEnd⟩ = .error .iterationOutOfRange)
    ∧ (∀ j : Nat, AppendView.nextIter s ⟨j, .InEnd⟩ = .error .iterationOutOfRange) := by
  refine ⟨AppendView.toList_append s v, ?_, fun j => rfl, fun j => rfl⟩
  cases s with
  | nil => rfl
  | cons a l => simp [AppendView.beginIter]

/-- C4: for every sequence and projection, `OrderBy` yields a permutation of
the source whose projected keys are non-decreasing, and `OrderByDescending`
yields a permutation whose projected keys are non-increasing. -/
theorem orderBy_spec (α β : Type) [LinearOrder β] (s : List α) (proj : α → β) :
    (Ranges.orderBy s proj).Perm s
    ∧ (Ranges.orderBy s proj).Pairwise (fun a b => proj a ≤ proj b)
    ∧ (Ranges.orderByDescending s proj).Perm s
    ∧ (Ranges.orderByDescending s proj).Pairwise (fun a b => proj b ≤ proj a) := by
  refine ⟨List.mergeSort_perm s _, ?_, List.mergeSort_perm s _, ?_⟩
  · have hp := @List.sorted_mergeSort α
      (fun a b : α => !decide (proj b < proj a))
      (fun a b c hab hbc => by
        simp only [Bool.not_eq_true', decide_eq_false_iff_not, not_lt] at hab hbc ⊢
        exact le_trans hab hbc)
      (fun a b => by
        simp only [Bool.or_eq_true, Bool.not_eq_true', decide_eq_false_iff_not, not_lt]
        exact le_total (proj a) (proj b))
      s
    refine hp.imp ?_
    intro a b hab
    simpa only [Bool.not_eq_true', decide_eq_false_iff_not, not_lt] using hab
  · have hp := @List.sorted_mergeSort α
      (fun a b : α => !decide (proj a < proj b))
      (fun a b c hab hbc => by
        simp only [Bool.not_eq_true', decide_eq_false_iff_not, not_lt] at hab hbc ⊢
        exact le_trans hbc hab)
      (fun a b => by
        simp only [Bool.or_eq_true, Bool.not_eq_true', decide_eq_false_iff_not, not_lt]
        exact le_total (proj b) (proj a))
      s
    refine hp.imp ?_
    intro a b hab
    simpa only [Bool.not_eq_true', decide_eq_false_iff_not, not_lt] using hab

/-- C5: an `OrderedView` does no draining or sorting at construction
(`sortCount = 0`, `_sorted` unset); the first `begin()` materializes and
sorts exactly once; `EnsureSorted` is idempotent, so any later `begin()` or
`end()` on the same instance reuses the cached buffer and neither drains nor
sorts again (the counter stays at 1 and the state is unchanged). -/
theorem orderedView_lazy_spec (α β : Type) (s : List α) (comp : β → β → Bool)
    (proj : α → β) :
    (OrderedView.initState : OrderedViewState α).sortCount = 0
    ∧ (OrderedView.initState : OrderedViewState α).sorted = false
    ∧ (OrderedView.beginOV s comp proj OrderedView.initState).2.sortCount = 1
    ∧ (OrderedView.beginOV s comp proj OrderedView.initState).2.sortedRange =
        OrderedView.materialize s comp proj
    ∧ (∀ st : OrderedViewState α,
        OrderedView.ensureSorted s comp proj (OrderedView.ensureSorted s comp proj st) =
          OrderedView.ensureSorted s comp proj st)
    ∧ (OrderedView.endOV s comp proj
        (OrderedView.beginOV s comp proj OrderedView.initState).2).2 =
          (OrderedView.beginOV s comp proj OrderedView.initState).2
    ∧ (OrderedView.beginOV s comp proj
        (OrderedView.beginOV s comp proj OrderedView.initState).2).2 =
          (OrderedView.beginOV s comp proj OrderedView.initState).2 := by
  have hid : ∀ st : OrderedViewState α,
      OrderedView.ensureSorted s comp proj (OrderedView.ensureSorted s comp proj st) =
        OrderedView.ensureSorted s comp proj st := by
    intro st
    rcases hs : st.sorted with _ | _ <;>
      simp [OrderedView.ensureSorted, hs]
  refine ⟨rfl, rfl, rfl, rfl, hid, ?_, ?_⟩
  · simp [OrderedView.endOV, OrderedView.beginOV, hid]
  · simp [OrderedView.beginOV, hid]

/-- C6: on an empty sequence, `First()` and `Last()` (both the bidirectional
and the forward code path) fail with the EmptySequence error, while
`FirstOrDefault()` and `LastOrDefault()` return an empty optional. -/
theorem first_last_empty_spec (α : Type) :
    Ranges.firstAdaptor ([] : List α) = .error .emptySequence
    ∧ Ranges.lastAdaptorBidir ([] : List α) = .error .emptySequence
    ∧ Ranges.lastAdaptorForward ([] : List α) = .error .emptySequence
    ∧ Ranges.firstOrDefaultAdaptor ([] : List α) = none
    ∧ Ranges.lastOrDefaultBidir ([] : List α) = none
    ∧ Ranges.lastOrDefaultForward ([] : List α) = none :=
  ⟨rfl, rfl, rfl, rfl, rfl, rfl⟩

/-- C7: for every finite sequence (and predicate), the backward-traversal
path and the forward-scan fallback path of `Last`, `LastOrDefault`,
`Last(pred)` and `LastOrDefault(pred)` return the same result: the same
element, and failure (or the empty optional) in exactly the same cases. -/
theorem last_paths_equiv_spec (α : Type) (s : List α) (p : α → Bool) :
    Ranges.lastAdaptorBidir s = Ranges.lastAdaptorForward s
    ∧ Ranges.lastOrDefaultBidir s = Ranges.lastOrDefaultForward s
    ∧ Ranges.lastPredBidir s p = Ranges.lastPredForward s p
    ∧ Ranges.lastOrDefaultPredBidir s p = Ranges.lastOrDefaultPredForward s p := by
  have hret : Ranges.lastRetainGo p none s = Ranges.findFirst p s.reverse := by
    rw [Ranges.lastRetainGo_eq, Option.or_none]
  refine ⟨?_, ?_, ?_, ?_⟩
  · cases s with
    | nil => rfl
    | cons x xs =>
      rw [Ranges.lastAdaptorBidir, Ranges.lastAdaptorForward,
        Ranges.lastForwardGo_eq_getLast]
  · cases s with
    | nil => rfl
    | cons x xs =>
      rw [Ranges.lastOrDefaultBidir, Ranges.lastOrDefaultForward,
        Ranges.lastForwardGo_eq_getLast]
  · rw [Ranges.lastPredBidir, Ranges.lastPredForward, hret]
  · rw [Ranges.lastOrDefaultPredBidir, Ranges.lastOrDefaultPredForward, hret]

/-- C8 counterexample: two elements of the input project to the same key
(both have key 1), yet `ToUnorderedMap` does not fail — it completes
normally, yielding the map whose single entry for that key comes from the
first element (the later duplicate is silently ignored by
`std::unordered_map::emplace`). -/
theorem toUnorderedMap_collision_cex :
    Prod.fst ((1, 10) : Nat × Nat) = Prod.fst ((1, 20) : Nat × Nat)
    ∧ Ranges.toUnorderedMap Prod.fst Prod.snd [((1, 10) : Nat × Nat), (1, 20)] = [(1, 10)]
    ∧ Ranges.lookupKey (Ranges.toUnorderedMap Prod.fst Prod.snd
        [((1, 10) : Nat × Nat), (1, 20)]) 1 = some 10 := by
  decide

/-- C8 (amended): when converting a sequence to a key/value mapping
(`ToUnorderedMap`), a key collision does not make the conversion fail; the
entry kept for a key is the one produced by the first element (in iteration
order) that projects to it, because the map type is fixed to
`std::unordered_map` and `emplace` never overwrites an existing key. -/
theorem toUnorderedMap_first_wins_spec (κ α ε : Type) [DecidableEq κ]
    (ks : α → κ) (es : α → ε) (s : List α) (x : α)
    (hx : s.find? (fun a => decide (ks a = ks x)) = some x) :
    Ranges.lookupKey (Ranges.toUnorderedMap ks es s) (ks x) = some (es x) := by
  rw [Ranges.toUnorderedMap, Ranges.toUnorderedMap_go, hx]
  rfl

theorem toUnorderedMap_first_wins_witness :
    (List.find? (fun a => decide (Prod.fst a = Prod.fst ((1, 10) : Nat × Nat)))
        [((1, 10) : Nat × Nat), (1, 20)] = some (1, 10))
    ∧ Ranges.lookupKey
        (Ranges.toUnorderedMap Prod.fst Prod.snd [((1, 10) : Nat × Nat), (1, 20)])
        1 = some 10 :=
  ⟨by decide,
    toUnorderedMap_first_wins_spec Nat (Nat × Nat) Nat Prod.fst Prod.snd
      [(1, 10), (1, 20)] (1, 10) (by decide)⟩

/-- C9: `ToUnorderedMap` returns a map with exactly one entry per distinct
projected key (the key list is duplicate-free); the entry stored at a key is
the one produced by the first element, in iteration order, that projects to
that key; and duplicate keys never cause an error (lookups are fully
characterized for every key, with no failing case). -/
theorem toUnorderedMap_spec (κ α ε : Type) [DecidableEq κ]
    (ks : α → κ) (es : α → ε) (s : List α) :
    (((Ranges.toUnorderedMap ks es s).map Prod.fst).Nodup)
    ∧ ∀ k, Ranges.lookupKey (Ranges.toUnorderedMap ks es s) k =
        (s.find? (fun a => decide (ks a = k))).map es := by
  constructor
  · exact Ranges.toUnorderedMap_go_nodup ks es s [] (by simp)
  · intro k
    rw [Ranges.toUnorderedMap, Ranges.toUnorderedMap_go]
    rw [show Ranges.lookupKey ([] : List (κ × ε)) k = none from rfl, Option.none_or]

/-- C10 counterexample: over the non-empty source `[0]` with chunk size 2,
the length 1 is not a multiple of 2, yet the chunk obtained by decrementing
the end cursor has 1 element, not `n = 2`: the "in particular" clause of the
claim fails whenever `len(S) < n`. -/
theorem chunk_prev_cex :
    ¬ (2 ∣ ([0] : List Nat).length)
    ∧ (ChunkView.derefIter ([0] : List Nat)
        (ChunkView.prevIter (ChunkView.endIter ([0] : List Nat) 2) 2)).length ≠ 2 := by
  decide

/-- C10 (amended): for every `Chunk(S, n)` view over a non-empty
bidirectional source, decrementing the end cursor yields a cursor whose
chunk is the subrange of the last `min(n, len(S))` elements of `S`, always
ending at the source's end; in particular, when `len(S) ≥ n` and `len(S)` is
not a multiple of `n`, this chunk has `n` elements and is therefore not the
partial last chunk produced by forward iteration. -/
theorem chunk_prev_spec (α : Type) (s : List α) (n : Nat) (hs : s ≠ []) (hn : 1 ≤ n) :
    ChunkView.derefIter s (ChunkView.prevIter (ChunkView.endIter s n) n) =
        s.drop (s.length - n)
    ∧ (ChunkView.derefIter s (ChunkView.prevIter (ChunkView.endIter s n) n)).length =
        min n s.length
    ∧ (ChunkView.prevIter (ChunkView.endIter s n) n).toPos = s.length
    ∧ (n ≤ s.length → ¬ n ∣ s.length →
        (ChunkView.derefIter s (ChunkView.prevIter (ChunkView.endIter s n) n)).length = n
        ∧ ∀ c, (ChunkView.chunkListGo s (n - 1) 0).getLast? = some c →
            c ≠ ChunkView.derefIter s (ChunkView.prevIter (ChunkView.endIter s n) n)) := by
  obtain ⟨m, rfl⟩ : ∃ m, n = m + 1 := ⟨n - 1, by omega⟩
  have hderef : ChunkView.derefIter s (ChunkView.prevIter (ChunkView.endIter s (m + 1)) (m + 1)) =
      s.drop (s.length - (m + 1)) := by
    show (s.drop (s.length - (m + 1))).take (s.length - (s.length - (m + 1))) = _
    rw [← List.length_drop]
    exact List.take_length _
  have hlen : (ChunkView.derefIter s
      (ChunkView.prevIter (ChunkView.endIter s (m + 1)) (m + 1))).length = min (m + 1) s.length := by
    rw [hderef, List.length_drop]
    omega
  refine ⟨hderef, hlen, rfl, ?_⟩
  intro hnle hnd
  have hlen2 : (ChunkView.derefIter s
      (ChunkView.prevIter (ChunkView.endIter s (m + 1)) (m + 1))).length = m + 1 := by
    rw [hlen]
    omega
  refine ⟨hlen2, ?_⟩
  intro c hc hceq
  obtain ⟨c0, hc0, hc0len⟩ :=
    ChunkView.chunkListGo_getLast_length s m 0 (by omega : 0 < s.length)
  rw [show (m + 1 - 1 : Nat) = m from rfl] at hc
  rw [hc0] at hc
  have hcc : c = c0 := (Option.some.inj hc).symm
  subst hcc
  rw [Nat.sub_zero] at hc0len
  have hcmod : c.length = s.length % (m + 1) := by
    rw [hc0len, ChunkView.mod_pred s.length (m + 1) (by omega) hnd]
  have hmlt : s.length % (m + 1) < m + 1 := Nat.mod_lt _ (by omega)
  rw [hceq, hlen2] at hcmod
  omega

theorem chunk_prev_witness :
    ([1, 2, 3, 4, 5] : List Nat) ≠ [] ∧ 1 ≤ 2 ∧
    (ChunkView.derefIter ([1, 2, 3, 4, 5] : List Nat)
        (ChunkView.prevIter (ChunkView.endIter ([1, 2, 3, 4, 5] : List Nat) 2) 2) = [4, 5]
      ∧ (ChunkView.derefIter ([1, 2, 3, 4, 5] : List Nat)
          (ChunkView.prevIter (ChunkView.endIter ([1, 2, 3, 4, 5] : List Nat) 2) 2)).length = 2
      ∧ (ChunkView.prevIter (ChunkView.endIter ([1, 2, 3, 4, 5] : List Nat) 2) 2).toPos = 5
      ∧ (2 ≤ 5 → ¬ (2 : Nat) ∣ 5 →
          (ChunkView.derefIter ([1, 2, 3, 4, 5] : List Nat)
            (ChunkView.prevIter (ChunkView.endIter ([1, 2, 3, 4, 5] : List Nat) 2) 2)).length = 2
          ∧ ∀ c, (ChunkView.chunkListGo ([1, 2, 3, 4, 5] : List Nat) 1 0).getLast? = some c →
              c ≠ ChunkView.derefIter ([1, 2, 3, 4, 5] : List Nat)
                (ChunkView.prevIter (ChunkView.endIter ([1, 2, 3, 4, 5] : List Nat) 2) 2))) :=
  ⟨by decide, by decide,
    chunk_prev_spec Nat [1, 2, 3, 4, 5] 2 (by decide) (by decide)⟩
